import Mathlib

/-
Verification of the log-aggregation filter in src/fluent-bit/aggregate.lua.

The filter buffers log records by their "traceId" field, appends messages,
keeps the latest status fields, and flushes one combined record when a
message containing "request completed" is seen.  It bounds memory by an
LRU capacity (MAX_BUFFER_SIZE = 1000) and a periodic staleness sweep
(every CLEANUP_INTERVAL = 100 participating records, dropping groups idle
longer than STALE_TIMEOUT_SEC = 30 seconds).

The embedding below is a direct transcription of the Lua source:
  - the Lua table `buffer` becomes an association list with unique keys
    (`buffer[k] = nil` is `eraseKey`, assignment to a present key is
    `setKey`, a fresh binding is appended);
  - the array `buffer_order` becomes a `List String`; the scan-and-break
    removal loops become `removeFirst`;
  - `os.time()` becomes the explicit `t : Nat` argument of each call;
  - the three return shapes of `combine_logs` (pass through the record,
    drop it, or pass the combined record) become the `Decision` sum.
Records are Lua tables; non-table inputs, which the source passes through
unchanged before touching any state, are outside the modelled record type.
-/

set_option maxHeartbeats 1000000
set_option maxRecDepth 100000

namespace Aggregate

/-- Values a record field may hold in the modelled traces: Lua strings,
integer numbers, or booleans. -/
inductive LVal where
  | str (s : String)
  | num (n : Int)
  | boolean (b : Bool)
deriving DecidableEq

/-- An input record (a Lua table).  Only the fields the filter reads are
modelled; an absent field is `none`. -/
structure Record where
  traceId : Option LVal
  message : Option String
  method : Option LVal
  path : Option LVal
  status : Option LVal
  latencyMs : Option LVal
deriving DecidableEq

/-- A buffered entry for one traceId, i.e. `buffer[traceId]` in the source. -/
structure Group where
  traceId : String
  messages : List String
  method : Option LVal
  path : Option LVal
  status : Option LVal
  latencyMs : Option LVal
  last_seen : Nat
  completed : Bool
deriving DecidableEq

/-- The combined record built at flush time (lines 141-148 of the source). -/
structure OutRecord where
  traceId : String
  message : String
  method : Option LVal
  path : Option LVal
  status : Option LVal
  latencyMs : Option LVal
deriving DecidableEq

/-- Outcome of one filter call: return code 1 with the original record,
return code -1 (record dropped), or return code 1 with the combined record. -/
inductive Decision where
  | passThrough (r : Record)
  | suppress
  | emit (out : OutRecord)
deriving DecidableEq

/-- The filter state: `buffer` (association list with unique keys, modelling
the Lua table), `buffer_order` (LRU list, oldest first), `cleanup_counter`. -/
structure AggState where
  buffer : List (String × Group)
  buffer_order : List String
  cleanup_counter : Nat
deriving DecidableEq

def MAX_BUFFER_SIZE : Nat := 1000

def STALE_TIMEOUT_SEC : Nat := 30

def CLEANUP_INTERVAL : Nat := 100

/-- The state at script load: empty buffer, empty order, counter 0. -/
def initState : AggState := { buffer := [], buffer_order := [], cleanup_counter := 0 }

/-- Association-list lookup, modelling the read `buffer[k]`. -/
def findKey : List (String × Group) → String → Option Group
  | [], _ => none
  | p :: tl, k => if p.1 = k then some p.2 else findKey tl k

/-- Deleting a binding, modelling `buffer[k] = nil`. -/
def eraseKey (m : List (String × Group)) (k : String) : List (String × Group) :=
  m.filter (fun p => decide (p.1 ≠ k))

/-- Overwriting the binding of a key that is present, modelling in-place
mutation of `buffer[k]`. -/
def setKey (m : List (String × Group)) (k : String) (v : Group) : List (String × Group) :=
  m.map (fun p => if p.1 = k then (k, v) else p)

/-- Remove the first occurrence of `k`, modelling the scan-and-break removal
loops over `buffer_order` (lines 34-39, 54-59, 153-158). -/
def removeFirst : List String → String → List String
  | [], _ => []
  | x :: xs, k => if x = k then xs else x :: removeFirst xs k

/-- `update_lru_order` (lines 52-62): remove the traceId from its current
position and append it at the most-recent end. -/
def update_lru_order (o : List String) (traceId : String) : List String :=
  removeFirst o traceId ++ [traceId]

/-- The `while` loop of lines 43-48: pop the oldest order entry and delete
its binding while the order is over capacity. -/
def enforceSize : List String → List (String × Group) → List (String × Group) × List String
  | [], m => (m, [])
  | hd :: tl, m =>
    if MAX_BUFFER_SIZE < (hd :: tl).length then enforceSize tl (eraseKey m hd)
    else (m, hd :: tl)

/-- Staleness test of line 26: `(current_time - entry.last_seen) > STALE_TIMEOUT_SEC`.
Lua's integer subtraction yields a negative number (hence `false`) when the
entry is newer than `t`; truncated `Nat` subtraction yields 0, which agrees. -/
def staleB (t : Nat) (g : Group) : Bool := decide (STALE_TIMEOUT_SEC < t - g.last_seen)

/-- Keys of the stale entries collected by the loop of lines 24-29. -/
def sweepIds (t : Nat) (s : AggState) : List String :=
  (s.buffer.filter (fun p => staleB t p.2)).map Prod.fst

/-- `cleanup_buffer` (lines 14-49): bump the counter and return unless it
reached `CLEANUP_INTERVAL`; otherwise reset it, delete every stale entry from
the buffer and the order, and run the size-enforcement loop. -/
def cleanup_buffer (t : Nat) (s : AggState) : AggState :=
  let c := s.cleanup_counter + 1
  if c < CLEANUP_INTERVAL then { s with cleanup_counter := c }
  else
    let staleIds := sweepIds t s
    let buffer1 := staleIds.foldl eraseKey s.buffer
    let order1 := staleIds.foldl removeFirst s.buffer_order
    let pr := enforceSize order1 buffer1
    { buffer := pr.1, buffer_order := pr.2, cleanup_counter := 0 }

/-- The completion marker searched for on line 83. -/
def completionMarker : String := "request completed"

/-- Line 83: `string.find(message, "request completed") ~= nil`.  The pattern
has no Lua magic characters, so this is plain substring search. -/
def hasMarker (msg : String) : Bool := decide (completionMarker.toList <:+: msg.toList)

/-- The validation of lines 71-75: the correlation key of a record, provided
it is present, a string, and nonempty; `none` means the record passes through. -/
def recKey (r : Record) : Option String :=
  match r.traceId with
  | some (.str s) => if s = "" then none else some s
  | _ => none

/-- The fresh entry of lines 96-105.  The source initialises the status fields
here and immediately re-assigns them in the shared update block (lines
123-135); the net state after the call is the same. -/
def newGroup (traceId : String) (r : Record) (t : Nat) : Group :=
  { traceId := traceId, messages := [], method := r.method, path := r.path,
    status := r.status, latencyMs := r.latencyMs, last_seen := t, completed := false }

/-- The shared update block of lines 120-135: append the message, then
overwrite each status field that is present on the record. -/
def updateGroup (g : Group) (msg : String) (r : Record) : Group :=
  { g with
    messages := g.messages ++ [msg],
    method := match r.method with | some v => some v | none => g.method,
    path := match r.path with | some v => some v | none => g.path,
    status := match r.status with | some v => some v | none => g.status,
    latencyMs := match r.latencyMs with | some v => some v | none => g.latencyMs }

/-- The combined record of lines 141-148: messages joined with a newline,
latest status fields. -/
def mkCombined (g : Group) : OutRecord :=
  { traceId := g.traceId, message := String.intercalate "\n" g.messages,
    method := g.method, path := g.path, status := g.status, latencyMs := g.latencyMs }

/-- Tail of `combine_logs` once the entry for `traceId` is in the buffer
(lines 120-165): run the update block, then either flush and delete the
group (completion) or keep it buffered and drop the record. -/
def finishRecord (traceId msg : String) (is_complete : Bool) (r : Record) (g : Group)
    (s : AggState) : Decision × AggState :=
  let g1 := updateGroup g msg r
  if is_complete then
    let g2 := { g1 with completed := true }
    (Decision.emit (mkCombined g2),
      { s with buffer := eraseKey s.buffer traceId,
               buffer_order := removeFirst s.buffer_order traceId })
  else (Decision.suppress, { s with buffer := setKey s.buffer traceId g1 })

/-- Lines 88-94: when at capacity, pop the oldest order entry and delete its
binding before creating a new one.  The case of an empty order is dead under
`MAX_BUFFER_SIZE ≤ length`, since the capacity is positive. -/
def evictIfFull (s : AggState) : AggState :=
  if MAX_BUFFER_SIZE ≤ s.buffer_order.length then
    match s.buffer_order with
    | [] => s
    | hd :: tl => { s with buffer := eraseKey s.buffer hd, buffer_order := tl }
  else s

/-- Lines 96-106: store the fresh entry and append its key to the order. -/
def insertGroup (s : AggState) (traceId : String) (g : Group) : AggState :=
  { s with buffer := s.buffer ++ [(traceId, g)],
           buffer_order := s.buffer_order ++ [traceId] }

/-- Lines 108-111: refresh last_seen (already folded into `g1`) and move the
key to the most-recent end of the order. -/
def touchGroup (s : AggState) (traceId : String) (g1 : Group) : AggState :=
  { s with buffer := setKey s.buffer traceId g1,
           buffer_order := update_lru_order s.buffer_order traceId }

/-- One call of `combine_logs` (lines 64-166), with `t` the value `os.time()`
returns during the call.  Validation precedes the cleanup call; an invalid
key returns the record unchanged without touching any state. -/
def combine_logs (t : Nat) (r : Record) (s : AggState) : Decision × AggState :=
  match recKey r with
  | none => (Decision.passThrough r, s)
  | some traceId =>
    let s1 := cleanup_buffer t s
    let msg := r.message.getD ""
    let is_complete := hasMarker msg
    match findKey s1.buffer traceId with
    | none =>
      let g := newGroup traceId r t
      finishRecord traceId msg is_complete r g (insertGroup (evictIfFull s1) traceId g)
    | some g0 =>
      let g1 := { g0 with last_seen := t }
      let s2 := touchGroup s1 traceId g1
      if g0.completed && is_complete then (Decision.suppress, s2)
      else finishRecord traceId msg is_complete r g1 s2

/-- Process a stream of (os.time value, record) pairs in order, collecting
the per-record decisions. -/
def processList : List (Nat × Record) → AggState → AggState × List Decision
  | [], s => (s, [])
  | tr :: rest, s =>
    let p := combine_logs tr.1 tr.2 s
    let q := processList rest p.2
    (q.1, p.1 :: q.2)

/-- States reachable from script load by a single synchronous stream of calls. -/
inductive Reachable : AggState → Prop where
  | init : Reachable initState
  | step (t : Nat) (r : Record) {s : AggState} : Reachable s → Reachable (combine_logs t r s).2

/-- Bool test: the live group of key `k` is stale at time `t` (false when the
key has no live group). -/
def staleKeyB (s : AggState) (t : Nat) (k : String) : Bool :=
  match findKey s.buffer k with
  | some g => staleB t g
  | none => false

/-- Spec-side helper for stating grouping correctness: the last non-absent
value of a status field over a record sequence, in processing order. -/
def lastField (f : Record → Option LVal) (rs : List Record) : Option LVal :=
  rs.foldl (fun acc r => match f r with | some v => some v | none => acc) none

/-- The buffered group accumulated after applying the records `rs` (all with
key `k`, none completing) at a common processing time `t`. -/
def groupAcc (k : String) (t : Nat) (rs : List Record) : Group :=
  { traceId := k, messages := rs.map (fun r => r.message.getD ""),
    method := lastField Record.method rs, path := lastField Record.path rs,
    status := lastField Record.status rs, latencyMs := lastField Record.latencyMs rs,
    last_seen := t, completed := false }

/-- The cleanup counter after n further validated records, starting from c. -/
def cAfter : Nat → Nat → Nat
  | c, 0 => c
  | c, n + 1 => cAfter (if c + 1 < CLEANUP_INTERVAL then c + 1 else 0) n

/-! ### Concrete sample records used in witnesses and counterexamples -/

/-- First record of Scenario A. -/
def rA1 : Record :=
  { traceId := some (.str "abc"), message := some "handler finished",
    method := none, path := none, status := some (.num 200), latencyMs := none }

/-- Second record of Scenario A: the completion signal with latency. -/
def rA2 : Record :=
  { traceId := some (.str "abc"), message := some "request completed",
    method := none, path := none, status := some (.num 200), latencyMs := some (.num 52) }

/-- A record with no traceId field at all. -/
def noKeyRec : Record :=
  { traceId := none, message := some "hello",
    method := none, path := none, status := none, latencyMs := none }

/-- A record whose traceId field holds a number instead of a string. -/
def numKeyRec : Record :=
  { traceId := some (.num 7), message := some "hello",
    method := none, path := none, status := none, latencyMs := none }

/-- State after processing the first Scenario A record at time 5. -/
def stateA1 : AggState := (combine_logs 5 rA1 initState).2

/-- The live group buffered in `stateA1`. -/
def grpA1 : Group :=
  { traceId := "abc", messages := ["handler finished"], method := none, path := none,
    status := some (.num 200), latencyMs := none, last_seen := 5, completed := false }

/-- A group with a stored path, used to check field-update independence. -/
def gDemo : Group :=
  { traceId := "k", messages := ["a"], method := some (.str "GET"),
    path := some (.str "/x"), status := none, latencyMs := none,
    last_seen := 0, completed := false }

/-- A record carrying only a status value. -/
def statusOnlyRec : Record :=
  { traceId := some (.str "k"), message := some "m", method := none, path := none,
    status := some (.num 500), latencyMs := none }

/-- The combined record flushed for a bare completion-signal record of key abc. -/
def dupOut : OutRecord :=
  { traceId := "abc", message := "request completed", method := none, path := none,
    status := some (.num 200), latencyMs := some (.num 52) }

/-- Scenario B keys: 1001 pairwise distinct nonempty strings. -/
def keyOf (i : Nat) : String := String.mk (List.replicate (i + 1) 'a')

/-- Scenario B records: one non-completing record per distinct key. -/
def recOf (i : Nat) : Record :=
  { traceId := some (.str (keyOf i)), message := some "step",
    method := none, path := none, status := none, latencyMs := none }

/-- The group buffered for Scenario B record i at time t. -/
def grpOf (i t : Nat) : Group :=
  { traceId := keyOf i, messages := ["step"], method := none, path := none,
    status := none, latencyMs := none, last_seen := t, completed := false }

/-- Scenario B buffer after the first m records at time t. -/
def bufB (m t : Nat) : List (String × Group) :=
  (List.range m).map (fun i => (keyOf i, grpOf i t))

/-- Scenario B eviction order after the first m records. -/
def ordB (m : Nat) : List String := (List.range m).map keyOf

/-- The first m Scenario B inputs, all at time t. -/
def recsB (m t : Nat) : List (Nat × Record) := (List.range m).map (fun i => (t, recOf i))

/-- Scenario B state after the first m records (m within capacity). -/
def stateB (m t : Nat) : AggState :=
  { buffer := bufB m t, buffer_order := ordB m,
    cleanup_counter := m % CLEANUP_INTERVAL }

/-- A filler record with key w, used to drive the sweep in Scenario C. -/
def wRec : Record :=
  { traceId := some (.str "w"), message := some "other traffic",
    method := none, path := none, status := none, latencyMs := none }

/-- One hundred filler records at time 36 (31 seconds after stateA1's group
was last seen), enough to trigger exactly one sweep. -/
def wRecs : List (Nat × Record) := List.replicate 100 (36, wRec)

/-! ### Association-list and order-list lemmas -/

theorem findKey_eq_none_iff {m : List (String × Group)} {k : String} :
    findKey m k = none ↔ k ∉ m.map Prod.fst := by
  induction m with
  | nil => simp [findKey]
  | cons p tl ih =>
    by_cases h : p.1 = k
    · simp [findKey, h]
    · have h' : ¬ k = p.1 := fun e => h e.symm
      simp [findKey, h, h', ih]

theorem mem_of_findKey_eq_some {m : List (String × Group)} {k : String} {g : Group}
    (h : findKey m k = some g) : (k, g) ∈ m := by
  induction m with
  | nil => simp [findKey] at h
  | cons p tl ih =>
    rcases p with ⟨a, b⟩
    by_cases hp : a = k
    · subst hp
      simp [findKey] at h
      rw [← h]
      exact List.mem_cons_self _ _
    · simp [findKey, hp] at h
      exact List.mem_cons_of_mem _ (ih h)

theorem findKey_eq_some_of_mem {m : List (String × Group)} {k : String} {g : Group}
    (hmem : (k, g) ∈ m) (hnd : (m.map Prod.fst).Nodup) : findKey m k = some g := by
  induction m with
  | nil => simp at hmem
  | cons p tl ih =>
    simp only [List.map_cons, List.nodup_cons] at hnd
    rcases List.mem_cons.mp hmem with h | h
    · simp [findKey, ← h]
    · have hk : k ∈ tl.map Prod.fst := List.mem_map.mpr ⟨(k, g), h, rfl⟩
      have hp : p.1 ≠ k := fun e => hnd.1 (e ▸ hk)
      simp [findKey, hp, ih h hnd.2]

theorem mem_eraseKey {m : List (String × Group)} {k : String} {p : String × Group} :
    p ∈ eraseKey m k ↔ p ∈ m ∧ p.1 ≠ k := by
  simp [eraseKey, List.mem_filter]

theorem eraseKey_sublist (m : List (String × Group)) (k : String) :
    List.Sublist (eraseKey m k) m := List.filter_sublist m

theorem map_fst_eraseKey (m : List (String × Group)) (k : String) :
    (eraseKey m k).map Prod.fst = (m.map Prod.fst).filter (fun x => decide (x ≠ k)) := by
  induction m with
  | nil => rfl
  | cons p tl ih =>
    simp only [eraseKey, ne_eq, decide_not] at ih ⊢
    simp only [List.filter_cons, List.map_cons]
    by_cases h : p.1 = k
    · simp [h, ih]
    · simp [h, ih]

theorem mem_map_fst_eraseKey {m : List (String × Group)} {k x : String} :
    x ∈ (eraseKey m k).map Prod.fst ↔ x ∈ m.map Prod.fst ∧ x ≠ k := by
  rw [map_fst_eraseKey]
  simp [List.mem_filter]

theorem nodup_map_fst_eraseKey {m : List (String × Group)} {k : String}
    (h : (m.map Prod.fst).Nodup) : ((eraseKey m k).map Prod.fst).Nodup := by
  rw [map_fst_eraseKey]
  exact h.filter _

theorem map_fst_setKey (m : List (String × Group)) (k : String) (v : Group) :
    (setKey m k v).map Prod.fst = m.map Prod.fst := by
  induction m with
  | nil => rfl
  | cons p tl ih =>
    simp only [setKey, List.map_cons] at ih ⊢
    rw [ih]
    by_cases h : p.1 = k <;> simp [h]

theorem mem_setKey_cases {m : List (String × Group)} {k : String} {v : Group}
    {q : String × Group} (h : q ∈ setKey m k v) : q = (k, v) ∨ q ∈ m := by
  rcases List.mem_map.mp h with ⟨p, hp, he⟩
  by_cases hk : p.1 = k
  · left
    rw [← he]
    simp [hk]
  · right
    rw [← he]
    simpa [hk] using hp

theorem findKey_setKey_self {m : List (String × Group)} {k : String} (v : Group)
    (h : k ∈ m.map Prod.fst) : findKey (setKey m k v) k = some v := by
  induction m with
  | nil => simp at h
  | cons p tl ih =>
    simp only [setKey, List.map_cons] at ih ⊢
    by_cases hp : p.1 = k
    · rw [if_pos hp]
      simp [findKey]
    · rw [if_neg hp]
      have hk : k ∈ tl.map Prod.fst := by
        rw [List.map_cons] at h
        rcases List.mem_cons.mp h with h1 | h1
        · exact absurd h1.symm hp
        · exact h1
      simp [findKey, hp, ih hk]

theorem findKey_setKey_ne {m : List (String × Group)} {k k' : String} (v : Group)
    (h : k' ≠ k) : findKey (setKey m k v) k' = findKey m k' := by
  induction m with
  | nil => rfl
  | cons p tl ih =>
    simp only [setKey, List.map_cons] at ih ⊢
    by_cases hp : p.1 = k
    · have h1 : ¬ (k = k') := fun e => h e.symm
      simp [findKey, hp, h1, ih]
    · by_cases hq : p.1 = k' <;> simp [findKey, hp, hq, h, ih]

theorem findKey_append_right {m1 m2 : List (String × Group)} {k : String}
    (h : findKey m1 k = none) : findKey (m1 ++ m2) k = findKey m2 k := by
  induction m1 with
  | nil => rfl
  | cons p tl ih =>
    by_cases hp : p.1 = k
    · simp [findKey, hp] at h
    · simp [findKey, hp] at h ⊢
      exact ih h

theorem removeFirst_eq_of_not_mem {l : List String} {k : String} (h : k ∉ l) :
    removeFirst l k = l := by
  induction l with
  | nil => rfl
  | cons x xs ih =>
    simp only [List.mem_cons, not_or] at h
    simp [removeFirst, Ne.symm h.1, h.1, ih h.2]

theorem removeFirst_sublist (l : List String) (k : String) :
    List.Sublist (removeFirst l k) l := by
  induction l with
  | nil => simp [removeFirst]
  | cons x xs ih =>
    by_cases h : x = k
    · rw [removeFirst, if_pos h]
      exact List.sublist_cons_self x xs
    · rw [removeFirst, if_neg h]
      exact ih.cons₂ x

theorem removeFirst_eq_filter {l : List String} (k : String) (h : l.Nodup) :
    removeFirst l k = l.filter (fun x => decide (x ≠ k)) := by
  induction l with
  | nil => rfl
  | cons x xs ih =>
    simp only [List.nodup_cons] at h
    by_cases hx : x = k
    · have hfe : List.filter (fun y => !decide (y = k)) xs = xs :=
        List.filter_eq_self.mpr (fun a ha => by
          have hak : a ≠ k := fun e => h.1 (by rw [hx, ← e]; exact ha)
          simp [hak])
      simp [removeFirst, hx, hfe]
    · simp [removeFirst, hx, ih h.2]

theorem eq_of_mem_of_nodup_keys {m : List (String × Group)}
    (hnd : (m.map Prod.fst).Nodup) {p q : String × Group}
    (hp : p ∈ m) (hq : q ∈ m) (h : p.1 = q.1) : p = q := by
  induction m with
  | nil => simp at hp
  | cons a tl ih =>
    simp only [List.map_cons, List.nodup_cons] at hnd
    rcases List.mem_cons.mp hp with h1 | h1 <;> rcases List.mem_cons.mp hq with h2 | h2
    · rw [h1, h2]
    · exact absurd (List.mem_map.mpr ⟨q, h2, by rw [← h, h1]⟩) hnd.1
    · exact absurd (List.mem_map.mpr ⟨p, h1, by rw [h, h2]⟩) hnd.1
    · exact ih hnd.2 h1 h2

theorem foldl_eraseKey (ids : List String) (m : List (String × Group)) :
    ids.foldl eraseKey m = m.filter (fun p => decide (p.1 ∉ ids)) := by
  induction ids generalizing m with
  | nil => simp
  | cons i is ih =>
    rw [List.foldl_cons, ih, eraseKey, List.filter_filter]
    apply List.filter_congr
    intro a _
    simp [List.mem_cons, not_or, Bool.and_comm]

theorem foldl_removeFirst (ids : List String) {l : List String} (h : l.Nodup) :
    ids.foldl removeFirst l = l.filter (fun x => decide (x ∉ ids)) := by
  induction ids generalizing l with
  | nil => simp
  | cons i is ih =>
    rw [List.foldl_cons, ih ((removeFirst_sublist l i).nodup h),
      removeFirst_eq_filter i h, List.filter_filter]
    apply List.filter_congr
    intro a _
    simp [List.mem_cons, not_or, Bool.and_comm]

theorem length_removeFirst_of_mem {l : List String} {k : String} (h : k ∈ l) :
    (removeFirst l k).length + 1 = l.length := by
  induction l with
  | nil => simp at h
  | cons x xs ih =>
    by_cases hx : x = k
    · simp [removeFirst, hx]
    · have : k ∈ xs := by
        rcases List.mem_cons.mp h with h1 | h1
        · exact absurd h1.symm hx
        · exact h1
      simp [removeFirst, hx, ← ih this]

/-! ### cleanup_buffer characterisation -/

theorem enforceSize_of_le {o : List String} (m : List (String × Group))
    (h : o.length ≤ MAX_BUFFER_SIZE) : enforceSize o m = (m, o) := by
  cases o with
  | nil => rfl
  | cons hd tl => rw [enforceSize, if_neg (Nat.not_lt.mpr h)]

theorem cleanup_buffer_lt {t : Nat} {s : AggState}
    (h : s.cleanup_counter + 1 < CLEANUP_INTERVAL) :
    cleanup_buffer t s = { s with cleanup_counter := s.cleanup_counter + 1 } := by
  rw [cleanup_buffer]
  exact if_pos h

theorem cleanup_counter_lt (t : Nat) (s : AggState) :
    (cleanup_buffer t s).cleanup_counter < CLEANUP_INTERVAL := by
  rw [cleanup_buffer]
  by_cases h : s.cleanup_counter + 1 < CLEANUP_INTERVAL
  · rw [if_pos h]
    exact h
  · rw [if_neg h]
    simp [CLEANUP_INTERVAL]

/-- When the counter reaches the interval, the sweep removes from the buffer
exactly the stale entries, and from the order exactly the keys of stale live
groups, provided keys are unique and the order is within capacity. -/
theorem cleanup_buffer_sweep {t : Nat} {s : AggState}
    (h : ¬ (s.cleanup_counter + 1 < CLEANUP_INTERVAL))
    (hndk : (s.buffer.map Prod.fst).Nodup) (hndo : s.buffer_order.Nodup)
    (hmem : ∀ k, k ∈ s.buffer_order ↔ k ∈ s.buffer.map Prod.fst)
    (hlen : s.buffer_order.length ≤ MAX_BUFFER_SIZE) :
    cleanup_buffer t s =
      { buffer := s.buffer.filter (fun p => !(staleB t p.2)),
        buffer_order := s.buffer_order.filter (fun k => !(staleKeyB s t k)),
        cleanup_counter := 0 } := by
  rw [cleanup_buffer]
  rw [if_neg h]
  have hbuf : (sweepIds t s).foldl eraseKey s.buffer =
      s.buffer.filter (fun p => !(staleB t p.2)) := by
    rw [foldl_eraseKey]
    apply List.filter_congr
    intro p hp
    by_cases hstale : staleB t p.2 = true
    · have : p.1 ∈ sweepIds t s :=
        List.mem_map.mpr ⟨p, List.mem_filter.mpr ⟨hp, hstale⟩, rfl⟩
      simp [this, hstale]
    · have : p.1 ∉ sweepIds t s := by
        intro hin
        rcases List.mem_map.mp hin with ⟨q, hq, he⟩
        rcases List.mem_filter.mp hq with ⟨hqm, hqs⟩
        have : q = p := eq_of_mem_of_nodup_keys hndk hqm hp he
        rw [this] at hqs
        exact hstale hqs
      simp [this, hstale]
  have hord : (sweepIds t s).foldl removeFirst s.buffer_order =
      s.buffer_order.filter (fun k => !(staleKeyB s t k)) := by
    rw [foldl_removeFirst _ hndo]
    apply List.filter_congr
    intro k hk
    have hkbuf : k ∈ s.buffer.map Prod.fst := (hmem k).mp hk
    rcases List.mem_map.mp hkbuf with ⟨p, hpm, hpe⟩
    have hfind : findKey s.buffer k = some p.2 := by
      have : (k, p.2) ∈ s.buffer := by
        have : p = (k, p.2) := by
          rw [← hpe]
        rw [← this]
        exact hpm
      exact findKey_eq_some_of_mem this hndk
    by_cases hstale : staleB t p.2 = true
    · have : k ∈ sweepIds t s :=
        List.mem_map.mpr ⟨p, List.mem_filter.mpr ⟨hpm, hstale⟩, hpe⟩
      simp [this, staleKeyB, hfind, hstale]
    · have : k ∉ sweepIds t s := by
        intro hin
        rcases List.mem_map.mp hin with ⟨q, hq, he⟩
        rcases List.mem_filter.mp hq with ⟨hqm, hqs⟩
        have : q = p := eq_of_mem_of_nodup_keys hndk hqm hpm (by rw [he, hpe])
        rw [this] at hqs
        exact hstale hqs
      simp [this, staleKeyB, hfind, hstale]
  have hlen1 : ((sweepIds t s).foldl removeFirst s.buffer_order).length ≤ MAX_BUFFER_SIZE := by
    rw [hord]
    exact le_trans (List.length_filter_le _ _) hlen
  simp only [hbuf, hord] at hlen1 ⊢
  rw [enforceSize_of_le _ hlen1]

/-! ### Branch equations for combine_logs -/

theorem combine_logs_invalid {t : Nat} {r : Record} {s : AggState}
    (h : recKey r = none) : combine_logs t r s = (Decision.passThrough r, s) := by
  rw [combine_logs, h]

theorem combine_logs_new {t : Nat} {r : Record} {s : AggState} {traceId : String}
    (hk : recKey r = some traceId)
    (hf : findKey (cleanup_buffer t s).buffer traceId = none) :
    combine_logs t r s =
      finishRecord traceId (r.message.getD "") (hasMarker (r.message.getD "")) r
        (newGroup traceId r t)
        (insertGroup (evictIfFull (cleanup_buffer t s)) traceId (newGroup traceId r t)) := by
  simp only [combine_logs, hk, hf]

theorem combine_logs_existing {t : Nat} {r : Record} {s : AggState} {traceId : String}
    {g0 : Group} (hk : recKey r = some traceId)
    (hf : findKey (cleanup_buffer t s).buffer traceId = some g0) :
    combine_logs t r s =
      (if g0.completed && hasMarker (r.message.getD "")
       then (Decision.suppress,
             touchGroup (cleanup_buffer t s) traceId { g0 with last_seen := t })
       else finishRecord traceId (r.message.getD "") (hasMarker (r.message.getD "")) r
              { g0 with last_seen := t }
              (touchGroup (cleanup_buffer t s) traceId { g0 with last_seen := t })) := by
  simp only [combine_logs, hk, hf]

theorem finishRecord_true (traceId msg : String) (r : Record) (g : Group) (s : AggState) :
    finishRecord traceId msg true r g s =
      (Decision.emit (mkCombined { updateGroup g msg r with completed := true }),
        { s with buffer := eraseKey s.buffer traceId,
                 buffer_order := removeFirst s.buffer_order traceId }) := rfl

theorem finishRecord_false (traceId msg : String) (r : Record) (g : Group) (s : AggState) :
    finishRecord traceId msg false r g s =
      (Decision.suppress,
        { s with buffer := setKey s.buffer traceId (updateGroup g msg r) }) := rfl

/-! ### The state invariant -/

theorem mem_removeFirst_iff {l : List String} {k x : String} (h : l.Nodup) :
    x ∈ removeFirst l k ↔ x ∈ l ∧ x ≠ k := by
  rw [removeFirst_eq_filter k h]
  simp [List.mem_filter]

/-- Invariant of every reachable filter state: the order has no duplicates,
buffer keys are unique, order membership equals buffer-key membership, the
order is within capacity, the counter is below the sweep interval, and every
live group is uncompleted and stores its own key. -/
structure Inv (s : AggState) : Prop where
  ndo : s.buffer_order.Nodup
  ndk : (s.buffer.map Prod.fst).Nodup
  mem : ∀ k, k ∈ s.buffer_order ↔ k ∈ s.buffer.map Prod.fst
  size : s.buffer_order.length ≤ MAX_BUFFER_SIZE
  counter : s.cleanup_counter < CLEANUP_INTERVAL
  uncompleted : ∀ p ∈ s.buffer, (Prod.snd p).completed = false
  keyed : ∀ p ∈ s.buffer, (Prod.snd p).traceId = Prod.fst p

theorem inv_init : Inv initState := by
  constructor <;> simp [initState, MAX_BUFFER_SIZE, CLEANUP_INTERVAL]

theorem inv_cleanup {s : AggState} (h : Inv s) (t : Nat) : Inv (cleanup_buffer t s) := by
  by_cases hc : s.cleanup_counter + 1 < CLEANUP_INTERVAL
  · rw [cleanup_buffer_lt hc]
    exact ⟨h.ndo, h.ndk, h.mem, h.size, hc, h.uncompleted, h.keyed⟩
  · rw [cleanup_buffer_sweep hc h.ndk h.ndo h.mem h.size]
    refine ⟨h.ndo.filter _, ?_, ?_, ?_, ?_, ?_, ?_⟩
    · exact List.Nodup.sublist ((List.filter_sublist s.buffer).map Prod.fst) h.ndk
    · intro k
      constructor
      · intro hkf
        rcases List.mem_filter.mp hkf with ⟨hko, hsk⟩
        rcases List.mem_map.mp ((h.mem k).mp hko) with ⟨p, hpm, hpe⟩
        refine List.mem_map.mpr ⟨p, List.mem_filter.mpr ⟨hpm, ?_⟩, hpe⟩
        have hfind : findKey s.buffer k = some p.2 := by
          have hpk : p = (k, p.2) := by
            rw [← hpe]
          rw [hpk] at hpm
          exact findKey_eq_some_of_mem hpm h.ndk
        simpa [staleKeyB, hfind] using hsk
      · intro hkm
        rcases List.mem_map.mp hkm with ⟨p, hpf, hpe⟩
        rcases List.mem_filter.mp hpf with ⟨hpm, hps⟩
        have hko : k ∈ s.buffer_order :=
          (h.mem k).mpr (List.mem_map.mpr ⟨p, hpm, hpe⟩)
        refine List.mem_filter.mpr ⟨hko, ?_⟩
        have hfind : findKey s.buffer k = some p.2 := by
          have hpk : p = (k, p.2) := by
            rw [← hpe]
          rw [hpk] at hpm
          exact findKey_eq_some_of_mem hpm h.ndk
        simpa [staleKeyB, hfind] using hps
    · exact le_trans (List.length_filter_le _ _) h.size
    · simp [CLEANUP_INTERVAL]
    · intro p hp
      exact h.uncompleted p (List.mem_filter.mp hp).1
    · intro p hp
      exact h.keyed p (List.mem_filter.mp hp).1

theorem updateGroup_completed (g : Group) (msg : String) (r : Record) :
    (updateGroup g msg r).completed = g.completed := rfl

theorem updateGroup_traceId (g : Group) (msg : String) (r : Record) :
    (updateGroup g msg r).traceId = g.traceId := rfl

theorem inv_finishRecord {traceId msg : String} {is_complete : Bool} {r : Record}
    {g : Group} {s : AggState} (h : Inv s) (hgc : g.completed = false)
    (hgk : g.traceId = traceId) :
    Inv (finishRecord traceId msg is_complete r g s).2 := by
  cases is_complete with
  | true =>
    rw [finishRecord_true]
    refine ⟨List.Nodup.sublist (removeFirst_sublist _ _) h.ndo,
      nodup_map_fst_eraseKey h.ndk, ?_, ?_, h.counter, ?_, ?_⟩
    · intro k
      rw [mem_removeFirst_iff h.ndo, mem_map_fst_eraseKey, h.mem k]
    · exact le_trans (List.Sublist.length_le (removeFirst_sublist _ _)) h.size
    · intro p hp
      exact h.uncompleted p (mem_eraseKey.mp hp).1
    · intro p hp
      exact h.keyed p (mem_eraseKey.mp hp).1
  | false =>
    rw [finishRecord_false]
    refine ⟨h.ndo, ?_, ?_, h.size, h.counter, ?_, ?_⟩
    · rw [map_fst_setKey]
      exact h.ndk
    · intro k
      rw [map_fst_setKey]
      exact h.mem k
    · intro p hp
      rcases mem_setKey_cases hp with he | hm
      · rw [he]
        simpa [updateGroup_completed] using hgc
      · exact h.uncompleted p hm
    · intro p hp
      rcases mem_setKey_cases hp with he | hm
      · rw [he]
        simpa [updateGroup_traceId] using hgk
      · exact h.keyed p hm

theorem inv_evictIfFull {s : AggState} (h : Inv s) : Inv (evictIfFull s) := by
  rw [evictIfFull]
  by_cases hcap : MAX_BUFFER_SIZE ≤ s.buffer_order.length
  · rw [if_pos hcap]
    cases ho : s.buffer_order with
    | nil => exact h
    | cons hd tl =>
      have hndo := h.ndo
      rw [ho, List.nodup_cons] at hndo
      refine ⟨hndo.2, nodup_map_fst_eraseKey h.ndk, ?_, ?_, h.counter, ?_, ?_⟩
      · intro k
        show k ∈ tl ↔ k ∈ (eraseKey s.buffer hd).map Prod.fst
        rw [mem_map_fst_eraseKey, ← h.mem k, ho]
        simp only [List.mem_cons]
        constructor
        · intro hmem
          have hne : k ≠ hd := fun e => hndo.1 (e ▸ hmem)
          exact ⟨Or.inr hmem, hne⟩
        · rintro ⟨hor | hmem, hne⟩
          · exact absurd hor hne
          · exact hmem
      · show tl.length ≤ MAX_BUFFER_SIZE
        have hs := h.size
        rw [ho, List.length_cons] at hs
        omega
      · intro p hp
        exact h.uncompleted p (mem_eraseKey.mp hp).1
      · intro p hp
        exact h.keyed p (mem_eraseKey.mp hp).1
  · rw [if_neg hcap]
    exact h

theorem evictIfFull_keys_subset {s : AggState} {x : String}
    (hx : x ∈ (evictIfFull s).buffer.map Prod.fst) : x ∈ s.buffer.map Prod.fst := by
  rw [evictIfFull] at hx
  by_cases hcap : MAX_BUFFER_SIZE ≤ s.buffer_order.length
  · rw [if_pos hcap] at hx
    cases ho : s.buffer_order with
    | nil =>
      rw [ho] at hx
      exact hx
    | cons hd tl =>
      rw [ho] at hx
      exact (mem_map_fst_eraseKey.mp hx).1
  · rw [if_neg hcap] at hx
    exact hx

theorem evictIfFull_length {s : AggState} (h : Inv s) :
    (evictIfFull s).buffer_order.length + 1 ≤ MAX_BUFFER_SIZE := by
  rw [evictIfFull]
  by_cases hcap : MAX_BUFFER_SIZE ≤ s.buffer_order.length
  · rw [if_pos hcap]
    cases ho : s.buffer_order with
    | nil =>
      rw [ho] at hcap
      simp [MAX_BUFFER_SIZE] at hcap
    | cons hd tl =>
      have hs := h.size
      rw [ho, List.length_cons] at hs
      show tl.length + 1 ≤ MAX_BUFFER_SIZE
      omega
  · rw [if_neg hcap]
    omega

theorem inv_insertGroup {s : AggState} (h : Inv s) {traceId : String} {g : Group}
    (htid : traceId ∉ s.buffer.map Prod.fst)
    (hlen : s.buffer_order.length + 1 ≤ MAX_BUFFER_SIZE)
    (hgc : g.completed = false) (hgk : g.traceId = traceId) :
    Inv (insertGroup s traceId g) := by
  have hto : traceId ∉ s.buffer_order := fun hm => htid ((h.mem traceId).mp hm)
  refine ⟨?_, ?_, ?_, ?_, h.counter, ?_, ?_⟩
  · show (s.buffer_order ++ [traceId]).Nodup
    rw [List.nodup_append]
    refine ⟨h.ndo, List.nodup_singleton _, ?_⟩
    intro a ha hb
    rw [List.mem_singleton] at hb
    exact hto (hb ▸ ha)
  · show ((s.buffer ++ [(traceId, g)]).map Prod.fst).Nodup
    rw [List.map_append, List.nodup_append]
    refine ⟨h.ndk, List.nodup_singleton _, ?_⟩
    intro a ha hb
    simp only [List.map_cons, List.map_nil, List.mem_singleton] at hb
    exact htid (hb ▸ ha)
  · intro k
    show k ∈ s.buffer_order ++ [traceId] ↔ k ∈ (s.buffer ++ [(traceId, g)]).map Prod.fst
    rw [List.map_append, List.mem_append, List.mem_append, h.mem k]
    simp
  · show (s.buffer_order ++ [traceId]).length ≤ MAX_BUFFER_SIZE
    rw [List.length_append, List.length_singleton]
    exact hlen
  · intro p hp
    rcases List.mem_append.mp hp with hm | hm
    · exact h.uncompleted p hm
    · rw [List.mem_singleton] at hm
      rw [hm]
      exact hgc
  · intro p hp
    rcases List.mem_append.mp hp with hm | hm
    · exact h.keyed p hm
    · rw [List.mem_singleton] at hm
      rw [hm]
      exact hgk

theorem inv_step {s : AggState} (h : Inv s) (t : Nat) (r : Record) :
    Inv (combine_logs t r s).2 := by
  cases hk : recKey r with
  | none =>
    rw [combine_logs_invalid hk]
    exact h
  | some traceId =>
    have h1 : Inv (cleanup_buffer t s) := inv_cleanup h t
    cases hf : findKey (cleanup_buffer t s).buffer traceId with
    | none =>
      rw [combine_logs_new hk hf]
      have htid : traceId ∉ (cleanup_buffer t s).buffer.map Prod.fst :=
        findKey_eq_none_iff.mp hf
      have h2 : Inv (evictIfFull (cleanup_buffer t s)) := inv_evictIfFull h1
      have htid2 : traceId ∉ (evictIfFull (cleanup_buffer t s)).buffer.map Prod.fst :=
        fun hm => htid (evictIfFull_keys_subset hm)
      have h3 := inv_insertGroup h2 htid2 (evictIfFull_length h1)
        (show (newGroup traceId r t).completed = false from rfl)
        (show (newGroup traceId r t).traceId = traceId from rfl)
      exact inv_finishRecord h3
        (show (newGroup traceId r t).completed = false from rfl)
        (show (newGroup traceId r t).traceId = traceId from rfl)
    | some g0 =>
      have hg0 : (traceId, g0) ∈ (cleanup_buffer t s).buffer := mem_of_findKey_eq_some hf
      have hg0c : g0.completed = false := h1.uncompleted (traceId, g0) hg0
      have hg0k : g0.traceId = traceId := h1.keyed (traceId, g0) hg0
      have hmemk : traceId ∈ (cleanup_buffer t s).buffer.map Prod.fst :=
        List.mem_map.mpr ⟨(traceId, g0), hg0, rfl⟩
      have h2 : Inv (touchGroup (cleanup_buffer t s) traceId { g0 with last_seen := t }) := by
        have hmo : traceId ∈ (cleanup_buffer t s).buffer_order := (h1.mem traceId).mpr hmemk
        refine ⟨?_, ?_, ?_, ?_, h1.counter, ?_, ?_⟩
        · simp only [touchGroup, update_lru_order]
          rw [List.nodup_append]
          refine ⟨List.Nodup.sublist (removeFirst_sublist _ _) h1.ndo, List.nodup_singleton _, ?_⟩
          intro a ha
          rw [mem_removeFirst_iff h1.ndo] at ha
          simpa using ha.2
        · simp only [touchGroup]
          rw [map_fst_setKey]
          exact h1.ndk
        · intro k
          simp only [touchGroup, update_lru_order, List.mem_append, List.mem_singleton]
          rw [map_fst_setKey, mem_removeFirst_iff h1.ndo, ← h1.mem k]
          by_cases hkt : k = traceId
          · simp [hkt, hmo]
          · simp [hkt]
        · simp only [touchGroup, update_lru_order]
          rw [List.length_append, List.length_singleton, length_removeFirst_of_mem hmo]
          exact h1.size
        · intro p hp
          rcases mem_setKey_cases hp with he | hm
          · rw [he]
            exact hg0c
          · exact h1.uncompleted p hm
        · intro p hp
          rcases mem_setKey_cases hp with he | hm
          · rw [he]
            exact hg0k
          · exact h1.keyed p hm
      rw [combine_logs_existing hk hf]
      by_cases hdup : (g0.completed && hasMarker (r.message.getD "")) = true
      · rw [if_pos hdup]
        exact h2
      · rw [if_neg hdup]
        exact inv_finishRecord h2 hg0c hg0k

theorem reachable_inv {s : AggState} (h : Reachable s) : Inv s := by
  induction h with
  | init => exact inv_init
  | step t r hr ih => exact inv_step ih t r

/-! ### Counter bookkeeping -/

theorem cleanup_counter_eq (t : Nat) (s : AggState) :
    (cleanup_buffer t s).cleanup_counter =
      if s.cleanup_counter + 1 < CLEANUP_INTERVAL then s.cleanup_counter + 1 else 0 := by
  by_cases h : s.cleanup_counter + 1 < CLEANUP_INTERVAL
  · rw [cleanup_buffer_lt h, if_pos h]
  · rw [if_neg h, cleanup_buffer, if_neg h]

theorem finishRecord_counter (traceId msg : String) (is_complete : Bool) (r : Record)
    (g : Group) (s : AggState) :
    (finishRecord traceId msg is_complete r g s).2.cleanup_counter = s.cleanup_counter := by
  cases is_complete with
  | true => rw [finishRecord_true]
  | false => rw [finishRecord_false]

theorem evictIfFull_counter (s : AggState) :
    (evictIfFull s).cleanup_counter = s.cleanup_counter := by
  rw [evictIfFull]
  by_cases h : MAX_BUFFER_SIZE ≤ s.buffer_order.length
  · rw [if_pos h]
    cases ho : s.buffer_order with
    | nil => rfl
    | cons hd tl => rfl
  · rw [if_neg h]

theorem combine_logs_counter {t : Nat} {r : Record} {s : AggState} {k : String}
    (hk : recKey r = some k) :
    (combine_logs t r s).2.cleanup_counter = (cleanup_buffer t s).cleanup_counter := by
  cases hf : findKey (cleanup_buffer t s).buffer k with
  | none =>
    rw [combine_logs_new hk hf, finishRecord_counter]
    show (evictIfFull (cleanup_buffer t s)).cleanup_counter = _
    exact evictIfFull_counter _
  | some g0 =>
    rw [combine_logs_existing hk hf]
    by_cases hdup : (g0.completed && hasMarker (r.message.getD "")) = true
    · rw [if_pos hdup]
      rfl
    · rw [if_neg hdup, finishRecord_counter]
      rfl

/-! ### Sequential processing lemmas -/

theorem processList_cons (t : Nat) (r : Record) (l : List (Nat × Record)) (s : AggState) :
    processList ((t, r) :: l) s =
      ((processList l (combine_logs t r s).2).1,
        (combine_logs t r s).1 :: (processList l (combine_logs t r s).2).2) := rfl

theorem processList_append (l1 l2 : List (Nat × Record)) (s : AggState) :
    processList (l1 ++ l2) s =
      ((processList l2 (processList l1 s).1).1,
       (processList l1 s).2 ++ (processList l2 (processList l1 s).1).2) := by
  induction l1 generalizing s with
  | nil => simp [processList]
  | cons x xs ih => simp [processList, ih]

theorem lastField_append (f : Record → Option LVal) (rs : List Record) (r : Record) :
    lastField f (rs ++ [r]) =
      (match f r with | some v => some v | none => lastField f rs) := by
  rw [lastField, List.foldl_append]
  rfl

theorem update_newGroup (k : String) (t : Nat) (r : Record) :
    updateGroup (newGroup k r t) (r.message.getD "") r = groupAcc k t [r] := by
  cases r with
  | mk tid msg me pa st la =>
    cases me <;> cases pa <;> cases st <;> cases la <;> rfl

theorem updateGroup_groupAcc (k : String) (t : Nat) (rs : List Record) (r : Record) :
    updateGroup (groupAcc k t rs) (r.message.getD "") r = groupAcc k t (rs ++ [r]) := by
  simp only [updateGroup, groupAcc, List.map_append, List.map_cons, List.map_nil,
    lastField_append]

theorem mkCombined_groupAcc (k : String) (t : Nat) (rs : List Record) :
    mkCombined { groupAcc k t rs with completed := true } =
      { traceId := k,
        message := String.intercalate "\n" (rs.map (fun r => r.message.getD "")),
        method := lastField Record.method rs, path := lastField Record.path rs,
        status := lastField Record.status rs,
        latencyMs := lastField Record.latencyMs rs } := rfl

theorem counterNext_lt (c : Nat) :
    (if c + 1 < CLEANUP_INTERVAL then c + 1 else 0) < CLEANUP_INTERVAL := by
  by_cases h : c + 1 < CLEANUP_INTERVAL
  · rw [if_pos h]
    exact h
  · rw [if_neg h]
    simp [CLEANUP_INTERVAL]

theorem cAfter_lt {c : Nat} (n : Nat) (hc : c < CLEANUP_INTERVAL) :
    cAfter c n < CLEANUP_INTERVAL := by
  induction n generalizing c with
  | zero => exact hc
  | succ m ih => exact ih (counterNext_lt c)

theorem combine_logs_first {t : Nat} {r : Record} {k : String}
    (hkey : r.traceId = some (LVal.str k)) (hk : k ≠ "") :
    combine_logs t r initState =
      finishRecord k (r.message.getD "") (hasMarker (r.message.getD "")) r
        (newGroup k r t)
        { buffer := [(k, newGroup k r t)], buffer_order := [k], cleanup_counter := 1 } := by
  have hrk : recKey r = some k := by simp [recKey, hkey, hk]
  have hclean : cleanup_buffer t initState =
      { buffer := [], buffer_order := [], cleanup_counter := 1 } := by
    rw [cleanup_buffer_lt (by decide)]
    rfl
  have hf : findKey (cleanup_buffer t initState).buffer k = none := by
    rw [hclean]
    rfl
  rw [combine_logs_new hrk hf, hclean]
  rfl

set_option maxHeartbeats 2000000 in
theorem combine_logs_sameKey {t : Nat} {r : Record} {k : String} {rs : List Record}
    {c : Nat} (hkey : r.traceId = some (LVal.str k)) (hk : k ≠ "") :
    combine_logs t r
        { buffer := [(k, groupAcc k t rs)], buffer_order := [k], cleanup_counter := c } =
      finishRecord k (r.message.getD "") (hasMarker (r.message.getD "")) r
        (groupAcc k t rs)
        { buffer := [(k, groupAcc k t rs)], buffer_order := [k],
          cleanup_counter := if c + 1 < CLEANUP_INTERVAL then c + 1 else 0 } := by
  have hrk : recKey r = some k := by simp [recKey, hkey, hk]
  have hstale : staleB t (groupAcc k t rs) = false := by
    simp [staleB, groupAcc, Nat.sub_self, STALE_TIMEOUT_SEC]
  have hclean : cleanup_buffer t
      { buffer := [(k, groupAcc k t rs)], buffer_order := [k], cleanup_counter := c } =
      { buffer := [(k, groupAcc k t rs)], buffer_order := [k],
        cleanup_counter := if c + 1 < CLEANUP_INTERVAL then c + 1 else 0 } := by
    by_cases h1 : c + 1 < CLEANUP_INTERVAL
    · rw [cleanup_buffer_lt h1, if_pos h1]
    · rw [cleanup_buffer_sweep h1 (by simp) (by simp) (by simp) (by
        simp [MAX_BUFFER_SIZE])]
      rw [if_neg h1]
      simp [hstale, staleKeyB, findKey]
  have hfind : findKey (cleanup_buffer t
      { buffer := [(k, groupAcc k t rs)], buffer_order := [k],
        cleanup_counter := c }).buffer k = some (groupAcc k t rs) := by
    rw [hclean]
    simp [findKey]
  rw [combine_logs_existing hrk hfind, hclean]
  have hsame : { groupAcc k t rs with last_seen := t } = groupAcc k t rs := rfl
  rw [hsame]
  rw [show (groupAcc k t rs).completed = false from rfl, Bool.false_and,
    if_neg Bool.false_ne_true]
  have htouch : touchGroup
      { buffer := [(k, groupAcc k t rs)], buffer_order := [k],
        cleanup_counter := if c + 1 < CLEANUP_INTERVAL then c + 1 else 0 } k
      (groupAcc k t rs) =
      { buffer := [(k, groupAcc k t rs)], buffer_order := [k],
        cleanup_counter := if c + 1 < CLEANUP_INTERVAL then c + 1 else 0 } := by
    simp [touchGroup, setKey, update_lru_order, removeFirst]
  rw [htouch]

theorem processList_sameKey_prefix {k : String} (hk : k ≠ "") (t : Nat)
    (body : List Record) :
    ∀ (rs : List Record) (c : Nat), c < CLEANUP_INTERVAL →
    (∀ r ∈ body, r.traceId = some (LVal.str k)) →
    (∀ r ∈ body, hasMarker (r.message.getD "") = false) →
    processList (body.map (fun r => (t, r)))
        { buffer := [(k, groupAcc k t rs)], buffer_order := [k], cleanup_counter := c } =
      ({ buffer := [(k, groupAcc k t (rs ++ body))], buffer_order := [k],
         cleanup_counter := cAfter c body.length },
       List.replicate body.length Decision.suppress) := by
  induction body with
  | nil =>
    intro rs c _ _ _
    simp [processList, cAfter]
  | cons r rest ih =>
    intro rs c hc hkeys hmarks
    rw [List.map_cons, processList_cons,
      combine_logs_sameKey (hkeys r (List.mem_cons_self r rest)) hk,
      hmarks r (List.mem_cons_self r rest), finishRecord_false]
    have hset : setKey [(k, groupAcc k t rs)] k
        (updateGroup (groupAcc k t rs) (r.message.getD "") r) =
        [(k, groupAcc k t (rs ++ [r]))] := by
      simp [setKey, updateGroup_groupAcc]
    dsimp only
    rw [hset, ih (rs ++ [r]) _ (counterNext_lt c)
      (fun r' hr' => hkeys r' (List.mem_cons_of_mem _ hr'))
      (fun r' hr' => hmarks r' (List.mem_cons_of_mem _ hr'))]
    rw [List.append_assoc]
    simp [List.replicate_succ, cAfter]

/-! ### Scenario B: capacity and LRU eviction -/

theorem setKey_append_last {m1 : List (String × Group)} {k : String} {g v : Group}
    (h : k ∉ m1.map Prod.fst) : setKey (m1 ++ [(k, g)]) k v = m1 ++ [(k, v)] := by
  induction m1 with
  | nil => simp [setKey]
  | cons p tl ih =>
    rw [List.map_cons] at h
    simp only [List.mem_cons, not_or] at h
    have hp : p.1 ≠ k := fun e => h.1 e.symm
    rw [List.cons_append]
    simp only [setKey, List.map_cons] at ih ⊢
    rw [if_neg hp]
    rw [List.cons_append]
    congr 1
    exact ih h.2

theorem buffer_length_eq {s : AggState} (h : Inv s) :
    s.buffer.length = s.buffer_order.length := by
  have hperm : s.buffer_order.Perm (s.buffer.map Prod.fst) :=
    (List.perm_ext_iff_of_nodup h.ndo h.ndk).mpr h.mem
  have hlen := hperm.length_eq
  rw [List.length_map] at hlen
  omega

theorem keyOf_injective : Function.Injective keyOf := by
  intro i j h
  have hl := congrArg String.length h
  simp [keyOf, String.length] at hl
  exact hl

theorem keyOf_ne_empty (i : Nat) : keyOf i ≠ "" := by
  intro h
  have hl := congrArg String.length h
  simp [keyOf, String.length] at hl

theorem bufB_map_fst (m t : Nat) : (bufB m t).map Prod.fst = ordB m := by
  rw [bufB, ordB, List.map_map]
  rfl

theorem ordB_nodup (m : Nat) : (ordB m).Nodup :=
  List.Nodup.map keyOf_injective (List.nodup_range m)

theorem ordB_length (m : Nat) : (ordB m).length = m := by
  rw [ordB, List.length_map, List.length_range]

theorem keyOf_not_mem_ordB {m i : Nat} (h : m ≤ i) : keyOf i ∉ ordB m := by
  intro hmem
  rcases List.mem_map.mp hmem with ⟨j, hj, he⟩
  rw [List.mem_range] at hj
  have := keyOf_injective he
  omega

theorem bufB_succ (m t : Nat) :
    bufB (m + 1) t = bufB m t ++ [(keyOf m, grpOf m t)] := by
  rw [bufB, bufB, List.range_succ, List.map_append]
  rfl

theorem ordB_succ (m : Nat) : ordB (m + 1) = ordB m ++ [keyOf m] := by
  rw [ordB, ordB, List.range_succ, List.map_append]
  rfl

theorem cleanup_stateB (m t : Nat) (hm : m ≤ MAX_BUFFER_SIZE) :
    cleanup_buffer t (stateB m t) =
      { buffer := bufB m t, buffer_order := ordB m,
        cleanup_counter := (m + 1) % CLEANUP_INTERVAL } := by
  have hc : (stateB m t).cleanup_counter = m % CLEANUP_INTERVAL := rfl
  by_cases h1 : m % CLEANUP_INTERVAL + 1 < CLEANUP_INTERVAL
  · rw [cleanup_buffer_lt (by rw [hc]; exact h1)]
    simp only [stateB]
    congr 1
    simp only [CLEANUP_INTERVAL] at h1 ⊢
    omega
  · simp only [cleanup_buffer]
    rw [if_neg (by rw [hc]; exact h1)]
    have hsw : sweepIds t (stateB m t) = [] := by
      rw [sweepIds]
      have hnone : (stateB m t).buffer.filter (fun p => staleB t p.2) = [] := by
        rw [List.filter_eq_nil_iff]
        intro p hp
        rcases List.mem_map.mp hp with ⟨i, _, he⟩
        rw [← he]
        simp [staleB, grpOf, Nat.sub_self, STALE_TIMEOUT_SEC]
      rw [hnone]
      rfl
    rw [hsw]
    simp only [List.foldl_nil]
    have hlen : (stateB m t).buffer_order.length ≤ MAX_BUFFER_SIZE := by
      rw [show (stateB m t).buffer_order = ordB m from rfl, ordB_length]
      exact hm
    rw [enforceSize_of_le _ hlen]
    congr 1
    simp only [CLEANUP_INTERVAL] at h1 ⊢
    omega

theorem scenB_step (m t : Nat) (hm : m + 1 ≤ MAX_BUFFER_SIZE) :
    combine_logs t (recOf m) (stateB m t) = (Decision.suppress, stateB (m + 1) t) := by
  have hrk : recKey (recOf m) = some (keyOf m) := by
    simp [recKey, recOf, keyOf_ne_empty m]
  have hclean := cleanup_stateB m t (by omega)
  have hfind : findKey (cleanup_buffer t (stateB m t)).buffer (keyOf m) = none := by
    rw [hclean, findKey_eq_none_iff]
    show keyOf m ∉ (bufB m t).map Prod.fst
    rw [bufB_map_fst]
    exact keyOf_not_mem_ordB (le_refl m)
  rw [combine_logs_new hrk hfind, hclean]
  have hevict : evictIfFull
      { buffer := bufB m t, buffer_order := ordB m,
        cleanup_counter := (m + 1) % CLEANUP_INTERVAL } =
      { buffer := bufB m t, buffer_order := ordB m,
        cleanup_counter := (m + 1) % CLEANUP_INTERVAL } := by
    rw [evictIfFull, if_neg]
    show ¬ (MAX_BUFFER_SIZE ≤ (ordB m).length)
    rw [ordB_length]
    omega
  rw [hevict]
  have hmark : hasMarker ((recOf m).message.getD "") = false := by
    show hasMarker "step" = false
    decide
  rw [hmark, finishRecord_false]
  dsimp only [insertGroup]
  have hset : setKey (bufB m t ++ [(keyOf m, newGroup (keyOf m) (recOf m) t)]) (keyOf m)
      (updateGroup (newGroup (keyOf m) (recOf m) t) ((recOf m).message.getD "") (recOf m)) =
      bufB (m + 1) t := by
    rw [setKey_append_last (by rw [bufB_map_fst]; exact keyOf_not_mem_ordB (le_refl m)),
      update_newGroup, show groupAcc (keyOf m) t [recOf m] = grpOf m t from rfl, ← bufB_succ]
  rw [hset, show ordB m ++ [keyOf m] = ordB (m + 1) from (ordB_succ m).symm]
  rfl

theorem scenB_prefix (t : Nat) : ∀ m, m ≤ MAX_BUFFER_SIZE →
    processList (recsB m t) initState = (stateB m t, List.replicate m Decision.suppress) := by
  intro m
  induction m with
  | zero =>
    intro _
    simp [recsB, processList, stateB, bufB, ordB, initState]
  | succ m ih =>
    intro hm
    have hrecs : recsB (m + 1) t = recsB m t ++ [(t, recOf m)] := by
      rw [recsB, recsB, List.range_succ, List.map_append]
      rfl
    rw [hrecs, processList_append, ih (by omega), processList_cons, scenB_step m t hm]
    simp [processList, List.replicate_succ']

theorem scenB_final (t : Nat) :
    processList (recsB 1001 t) initState =
      ({ buffer := eraseKey (bufB 1000 t) (keyOf 0) ++ [(keyOf 1000, grpOf 1000 t)],
         buffer_order := (List.map Nat.succ (List.range 999)).map keyOf ++ [keyOf 1000],
         cleanup_counter := 1 },
       List.replicate 1001 Decision.suppress) := by
  have hrecs : recsB 1001 t = recsB 1000 t ++ [(t, recOf 1000)] := by
    rw [recsB, recsB, show (1001 : Nat) = 1000 + 1 from rfl, List.range_succ, List.map_append]
    rfl
  rw [hrecs, processList_append,
    scenB_prefix t 1000 (by simp [MAX_BUFFER_SIZE])]
  have hrk : recKey (recOf 1000) = some (keyOf 1000) := by
    simp [recKey, recOf, keyOf_ne_empty 1000]
  have hclean := cleanup_stateB 1000 t (by simp [MAX_BUFFER_SIZE])
  have hfind : findKey (cleanup_buffer t (stateB 1000 t)).buffer (keyOf 1000) = none := by
    rw [hclean, findKey_eq_none_iff]
    show keyOf 1000 ∉ (bufB 1000 t).map Prod.fst
    rw [bufB_map_fst]
    exact keyOf_not_mem_ordB (le_refl 1000)
  rw [processList_cons, combine_logs_new hrk hfind, hclean]
  have hord : ordB 1000 = keyOf 0 :: (List.map Nat.succ (List.range 999)).map keyOf := by
    rw [ordB, show (1000 : Nat) = 999 + 1 from rfl, List.range_succ_eq_map, List.map_cons]
  have hevict : evictIfFull
      { buffer := bufB 1000 t, buffer_order := ordB 1000,
        cleanup_counter := (1000 + 1) % CLEANUP_INTERVAL } =
      { buffer := eraseKey (bufB 1000 t) (keyOf 0),
        buffer_order := (List.map Nat.succ (List.range 999)).map keyOf,
        cleanup_counter := (1000 + 1) % CLEANUP_INTERVAL } := by
    have hcap : MAX_BUFFER_SIZE ≤ (ordB 1000).length := by
      rw [ordB_length]
      decide
    rw [evictIfFull, if_pos hcap, hord]
  rw [hevict]
  have hmark : hasMarker ((recOf 1000).message.getD "") = false := by
    show hasMarker "step" = false
    decide
  rw [hmark, finishRecord_false]
  dsimp only [insertGroup]
  have hnotin : keyOf 1000 ∉ (eraseKey (bufB 1000 t) (keyOf 0)).map Prod.fst := by
    intro hmem
    have h1 := (mem_map_fst_eraseKey.mp hmem).1
    rw [bufB_map_fst] at h1
    exact keyOf_not_mem_ordB (le_refl 1000) h1
  rw [setKey_append_last hnotin, update_newGroup,
    show groupAcc (keyOf 1000) t [recOf 1000] = grpOf 1000 t from rfl]
  simp [processList, List.replicate_succ']
  decide

/-! ### Staleness: entry preservation and removal across calls -/

theorem enforceSize_mem : ∀ {o : List String} {m : List (String × Group)}
    {p : String × Group}, p ∈ (enforceSize o m).1 → p ∈ m := by
  intro o
  induction o with
  | nil =>
    intro m p h
    exact h
  | cons hd tl ih =>
    intro m p h
    rw [enforceSize] at h
    by_cases hc : MAX_BUFFER_SIZE < (hd :: tl).length
    · rw [if_pos hc] at h
      exact (mem_eraseKey.mp (ih h)).1
    · rw [if_neg hc] at h
      exact h

theorem cleanup_buffer_mem {t : Nat} {s : AggState} {p : String × Group}
    (h : p ∈ (cleanup_buffer t s).buffer) : p ∈ s.buffer := by
  by_cases h1 : s.cleanup_counter + 1 < CLEANUP_INTERVAL
  · rw [cleanup_buffer_lt h1] at h
    exact h
  · simp only [cleanup_buffer] at h
    rw [if_neg h1] at h
    have h2 := enforceSize_mem h
    rw [foldl_eraseKey] at h2
    exact (List.mem_filter.mp h2).1

theorem evictIfFull_mem {s : AggState} {p : String × Group}
    (h : p ∈ (evictIfFull s).buffer) : p ∈ s.buffer := by
  rw [evictIfFull] at h
  by_cases hc : MAX_BUFFER_SIZE ≤ s.buffer_order.length
  · rw [if_pos hc] at h
    cases ho : s.buffer_order with
    | nil =>
      rw [ho] at h
      exact h
    | cons hd tl =>
      rw [ho] at h
      exact (mem_eraseKey.mp h).1
  · rw [if_neg hc] at h
    exact h

theorem post_cleanup_mem {t : Nat} {r : Record} {s : AggState} {tid k : String}
    {g' : Group} (hrk : recKey r = some tid) (hne : tid ≠ k)
    (h : (k, g') ∈ (combine_logs t r s).2.buffer) :
    (k, g') ∈ (cleanup_buffer t s).buffer := by
  cases hf : findKey (cleanup_buffer t s).buffer tid with
  | none =>
    rw [combine_logs_new hrk hf] at h
    cases hm : hasMarker (r.message.getD "") with
    | true =>
      rw [hm, finishRecord_true] at h
      have h2 := (mem_eraseKey.mp h).1
      rcases List.mem_append.mp h2 with h3 | h3
      · exact evictIfFull_mem h3
      · rw [List.mem_singleton] at h3
        exact absurd (congrArg Prod.fst h3).symm hne
    | false =>
      rw [hm, finishRecord_false] at h
      rcases mem_setKey_cases h with he | hmem
      · exact absurd (congrArg Prod.fst he).symm hne
      · rcases List.mem_append.mp hmem with h3 | h3
        · exact evictIfFull_mem h3
        · rw [List.mem_singleton] at h3
          exact absurd (congrArg Prod.fst h3).symm hne
  | some g0 =>
    rw [combine_logs_existing hrk hf] at h
    by_cases hdup : (g0.completed && hasMarker (r.message.getD "")) = true
    · rw [if_pos hdup] at h
      rcases mem_setKey_cases h with he | hmem
      · exact absurd (congrArg Prod.fst he).symm hne
      · exact hmem
    · rw [if_neg hdup] at h
      cases hm : hasMarker (r.message.getD "") with
      | true =>
        rw [hm, finishRecord_true] at h
        have h2 := (mem_eraseKey.mp h).1
        rcases mem_setKey_cases h2 with he | hmem
        · exact absurd (congrArg Prod.fst he).symm hne
        · exact hmem
      | false =>
        rw [hm, finishRecord_false] at h
        rcases mem_setKey_cases h with he | hmem
        · exact absurd (congrArg Prod.fst he).symm hne
        · rcases mem_setKey_cases hmem with he2 | hmem2
          · exact absurd (congrArg Prod.fst he2).symm hne
          · exact hmem2

theorem other_key_entry {t : Nat} {r : Record} {s : AggState} {tid k : String}
    {g' : Group} (hrk : recKey r = some tid) (hne : tid ≠ k)
    (h : (k, g') ∈ (combine_logs t r s).2.buffer) : (k, g') ∈ s.buffer :=
  cleanup_buffer_mem (post_cleanup_mem hrk hne h)

theorem sweep_removes {t : Nat} {s : AggState} {k : String} {g : Group}
    (h1 : ¬ (s.cleanup_counter + 1 < CLEANUP_INTERVAL))
    (hmem : (k, g) ∈ s.buffer) (hstale : staleB t g = true) :
    findKey (cleanup_buffer t s).buffer k = none := by
  rw [findKey_eq_none_iff]
  intro hk
  rcases List.mem_map.mp hk with ⟨p, hp, he⟩
  simp only [cleanup_buffer] at hp
  rw [if_neg h1] at hp
  have hp1 := enforceSize_mem hp
  rw [foldl_eraseKey] at hp1
  have hnotin : p.1 ∉ sweepIds t s := of_decide_eq_true (List.mem_filter.mp hp1).2
  apply hnotin
  rw [he]
  exact List.mem_map.mpr ⟨(k, g), List.mem_filter.mpr ⟨hmem, hstale⟩, rfl⟩

theorem stale_key_removed_call {t : Nat} {r : Record} {s : AggState} {tid k : String}
    {g : Group} (hrk : recKey r = some tid) (hne : tid ≠ k)
    (h1 : ¬ (s.cleanup_counter + 1 < CLEANUP_INTERVAL)) (hmem : (k, g) ∈ s.buffer)
    (hstale : staleB t g = true) :
    findKey (combine_logs t r s).2.buffer k = none := by
  rw [findKey_eq_none_iff]
  intro hk
  rcases List.mem_map.mp hk with ⟨p, hp, he⟩
  have hpe : p = (k, p.2) := by
    rw [← he]
  rw [hpe] at hp
  have hpc := post_cleanup_mem hrk hne hp
  have hnone := findKey_eq_none_iff.mp (sweep_removes h1 hmem hstale)
  exact hnone (List.mem_map.mpr ⟨(k, p.2), hpc, rfl⟩)

theorem absent_processList {k : String} : ∀ (rs : List (Nat × Record)) (s : AggState),
    (∀ p ∈ rs, recKey (Prod.snd p) ≠ some k) → findKey s.buffer k = none →
    findKey (processList rs s).1.buffer k = none := by
  intro rs
  induction rs with
  | nil =>
    intro s _ h
    exact h
  | cons x xs ih =>
    intro s hall h
    rcases x with ⟨t1, r1⟩
    rw [processList_cons]
    apply ih _ (fun p hp => hall p (List.mem_cons_of_mem _ hp))
    cases hk : recKey r1 with
    | none =>
      rw [combine_logs_invalid hk]
      exact h
    | some tid =>
      have hne : tid ≠ k := by
        intro e
        exact hall (t1, r1) (List.mem_cons_self _ _) (by rw [hk, e])
      rw [findKey_eq_none_iff] at h ⊢
      intro hmem
      rcases List.mem_map.mp hmem with ⟨p, hp, he⟩
      have hpe : p = (k, p.2) := by
        rw [← he]
      rw [hpe] at hp
      exact h (List.mem_map.mpr ⟨(k, p.2), other_key_entry hk hne hp, rfl⟩)

theorem emit_traceId {t : Nat} {r : Record} {s : AggState} {out : OutRecord}
    (hInv : Inv s) (h : (combine_logs t r s).1 = Decision.emit out) :
    recKey r = some out.traceId := by
  cases hk : recKey r with
  | none =>
    rw [combine_logs_invalid hk] at h
    exact absurd h (by simp)
  | some tid =>
    cases hf : findKey (cleanup_buffer t s).buffer tid with
    | none =>
      rw [combine_logs_new hk hf] at h
      cases hm : hasMarker (r.message.getD "") with
      | true =>
        rw [hm, finishRecord_true] at h
        have hout : mkCombined { updateGroup (newGroup tid r t) (r.message.getD "") r
            with completed := true } = out := by
          injection h
        have hti : (mkCombined { updateGroup (newGroup tid r t) (r.message.getD "") r
            with completed := true }).traceId = tid := rfl
        rw [← hout, hti]
      | false =>
        rw [hm, finishRecord_false] at h
        exact absurd h (by simp)
    | some g0 =>
      rw [combine_logs_existing hk hf] at h
      by_cases hdup : (g0.completed && hasMarker (r.message.getD "")) = true
      · rw [if_pos hdup] at h
        exact absurd h (by simp)
      · rw [if_neg hdup] at h
        cases hm : hasMarker (r.message.getD "") with
        | true =>
          rw [hm, finishRecord_true] at h
          have hout : mkCombined { updateGroup { g0 with last_seen := t }
              (r.message.getD "") r with completed := true } = out := by
            injection h
          have hg0 : g0.traceId = tid :=
            (inv_cleanup hInv t).keyed (tid, g0) (mem_of_findKey_eq_some hf)
          have hti : (mkCombined { updateGroup { g0 with last_seen := t }
              (r.message.getD "") r with completed := true }).traceId = g0.traceId := rfl
          rw [← hout, hti, hg0]
        | false =>
          rw [hm, finishRecord_false] at h
          exact absurd h (by simp)

theorem no_emit_for_key {k : String} : ∀ (rs : List (Nat × Record)) (s : AggState),
    Inv s → (∀ p ∈ rs, recKey (Prod.snd p) ≠ some k) →
    ∀ d ∈ (processList rs s).2, ∀ out, d = Decision.emit out → out.traceId ≠ k := by
  intro rs
  induction rs with
  | nil =>
    intro s _ _ d hd
    simp [processList] at hd
  | cons x xs ih =>
    intro s hInv hall d hd out hout hktr
    rcases x with ⟨t1, r1⟩
    rw [processList_cons] at hd
    rcases List.mem_cons.mp hd with hd1 | hd1
    · have := emit_traceId hInv (by rw [← hd1, hout])
      rw [hktr] at this
      exact hall (t1, r1) (List.mem_cons_self _ _) this
    · exact ih _ (inv_step hInv t1 r1) (fun p hp => hall p (List.mem_cons_of_mem _ hp))
        d hd1 out hout hktr

theorem stale_gone : ∀ (rs : List (Nat × Record)) (s : AggState) (k : String) (g : Group),
    Inv s → findKey s.buffer k = some g →
    (∀ p ∈ rs, ∃ tid, recKey (Prod.snd p) = some tid ∧ tid ≠ k) →
    (∀ p ∈ rs, STALE_TIMEOUT_SEC < Prod.fst p - g.last_seen) →
    CLEANUP_INTERVAL ≤ s.cleanup_counter + rs.length →
    findKey (processList rs s).1.buffer k = none := by
  intro rs
  induction rs with
  | nil =>
    intro s k g hInv _ _ _ hlen
    exact absurd hlen (by
      have := hInv.counter
      simp only [List.length_nil, Nat.add_zero]
      omega)
  | cons x xs ih =>
    intro s k g hInv hfind hkeys htimes hlen
    rcases x with ⟨t1, r1⟩
    rcases hkeys (t1, r1) (List.mem_cons_self _ _) with ⟨tid, hrk, hne⟩
    have hkeys' : ∀ p ∈ xs, ∃ tid, recKey (Prod.snd p) = some tid ∧ tid ≠ k :=
      fun p hp => hkeys p (List.mem_cons_of_mem _ hp)
    have hne' : ∀ p ∈ xs, recKey (Prod.snd p) ≠ some k := by
      intro p hp hc
      rcases hkeys' p hp with ⟨tid', h', hne''⟩
      rw [h'] at hc
      exact hne'' (Option.some.inj hc)
    rw [processList_cons]
    by_cases h1 : s.cleanup_counter + 1 < CLEANUP_INTERVAL
    · cases hf2 : findKey (combine_logs t1 r1 s).2.buffer k with
      | none => exact absent_processList xs _ hne' hf2
      | some g2 =>
        have hmem0 : (k, g2) ∈ s.buffer :=
          other_key_entry hrk hne (mem_of_findKey_eq_some hf2)
        have heq : (k, g2) = (k, g) :=
          eq_of_mem_of_nodup_keys hInv.ndk hmem0 (mem_of_findKey_eq_some hfind) rfl
        have hg2 : g2 = g := congrArg Prod.snd heq
        have hcnt : (combine_logs t1 r1 s).2.cleanup_counter = s.cleanup_counter + 1 := by
          rw [combine_logs_counter hrk, cleanup_counter_eq, if_pos h1]
        apply ih _ k g (inv_step hInv t1 r1) (by rw [← hg2]; exact hf2) hkeys'
          (fun p hp => htimes p (List.mem_cons_of_mem _ hp))
        rw [hcnt]
        rw [List.length_cons] at hlen
        omega
    · have hstale : staleB t1 g = true := by
        have ht := htimes (t1, r1) (List.mem_cons_self _ _)
        exact decide_eq_true ht
      have hgone := stale_key_removed_call hrk hne h1 (mem_of_findKey_eq_some hfind) hstale
      exact absent_processList xs _ hne' hgone

/-! ### Claim theorems -/

/-- C1: starting from the empty aggregator, a sequence of records sharing
one correlation key whose last record alone carries the completion marker
(all delivered at one processing time) yields exactly one Emit — every
earlier record is suppressed — and the combined record joins every message
with newlines in append order and carries, per status field, the last
non-absent value seen. -/
theorem C1_grouping_correctness :
    ∀ k : String, k ≠ "" → ∀ (t : Nat) (body : List Record) (last : Record),
      (∀ r ∈ body, r.traceId = some (LVal.str k)) →
      (∀ r ∈ body, hasMarker (r.message.getD "") = false) →
      last.traceId = some (LVal.str k) →
      hasMarker (last.message.getD "") = true →
      (processList ((body ++ [last]).map (fun r => (t, r))) initState).2 =
        List.replicate body.length Decision.suppress ++
          [Decision.emit
            { traceId := k,
              message := String.intercalate "\n"
                ((body ++ [last]).map (fun r => r.message.getD "")),
              method := lastField Record.method (body ++ [last]),
              path := lastField Record.path (body ++ [last]),
              status := lastField Record.status (body ++ [last]),
              latencyMs := lastField Record.latencyMs (body ++ [last]) }] := by
  intro k hk t body last hkeys hmarks hklast hmlast
  cases body with
  | nil =>
    rw [List.nil_append, List.map_cons, List.map_nil, processList_cons,
      combine_logs_first hklast hk, hmlast, finishRecord_true, update_newGroup,
      mkCombined_groupAcc]
    simp [processList]
  | cons r0 rest =>
    have hkeys0 := hkeys r0 (List.mem_cons_self r0 rest)
    have hmarks0 := hmarks r0 (List.mem_cons_self r0 rest)
    rw [List.cons_append, List.map_cons, processList_cons,
      combine_logs_first hkeys0 hk, hmarks0, finishRecord_false]
    have hset : setKey [(k, newGroup k r0 t)] k
        (updateGroup (newGroup k r0 t) (r0.message.getD "") r0) =
        [(k, groupAcc k t [r0])] := by
      simp [setKey, update_newGroup]
    dsimp only
    rw [hset, List.map_append, processList_append,
      processList_sameKey_prefix hk t rest [r0] 1 (by decide)
        (fun r' hr' => hkeys r' (List.mem_cons_of_mem _ hr'))
        (fun r' hr' => hmarks r' (List.mem_cons_of_mem _ hr'))]
    rw [List.map_cons, List.map_nil, processList_cons,
      combine_logs_sameKey hklast hk,
      hmlast, finishRecord_true, updateGroup_groupAcc, mkCombined_groupAcc]
    simp [processList, List.replicate_succ]

/-- Witness for C1_grouping_correctness: Scenario A — two records of key abc,
the second completing, produce one suppress and one Emit of the expected
combined record. -/
theorem C1_witness :
    (processList (([rA1] ++ [rA2]).map (fun r => (5, r))) initState).2 =
      [Decision.suppress, Decision.emit
        { traceId := "abc", message := "handler finished\nrequest completed",
          method := none, path := none, status := some (.num 200),
          latencyMs := some (.num 52) }] := by
  have h := C1_grouping_correctness "abc" (by decide) 5 [rA1] rA2
    (by decide) (by decide) (by decide) (by decide)
  exact h.trans (by decide)

/-- C3: the live group count (buffer entries and eviction-order entries)
never exceeds MAX_BUFFER_SIZE in any reachable state; and in the Scenario B
run — 1001 distinct keys sent once each at time 5 with no completion — every
decision is Suppress (no emission), exactly 1000 groups remain live, the
first-inserted key keyOf 0 has been evicted, and every other key is still
live. -/
theorem C3_capacity_bound :
    (∀ s : AggState, Reachable s →
      s.buffer.length ≤ MAX_BUFFER_SIZE ∧ s.buffer_order.length ≤ MAX_BUFFER_SIZE) ∧
    (processList (recsB 1001 5) initState).2 = List.replicate 1001 Decision.suppress ∧
    (processList (recsB 1001 5) initState).1.buffer_order.length = MAX_BUFFER_SIZE ∧
    keyOf 0 ∉ (processList (recsB 1001 5) initState).1.buffer.map Prod.fst ∧
    (∀ i, 1 ≤ i → i ≤ 1000 →
      keyOf i ∈ (processList (recsB 1001 5) initState).1.buffer.map Prod.fst) := by
  refine ⟨?_, ?_, ?_, ?_, ?_⟩
  · intro s h
    have hInv := reachable_inv h
    rw [buffer_length_eq hInv]
    exact ⟨hInv.size, hInv.size⟩
  · rw [scenB_final 5]
  · rw [scenB_final 5]
    simp only [List.length_append, List.length_map, List.length_range,
      List.length_singleton]
    decide
  · rw [scenB_final 5]
    intro hmem
    rw [List.map_append, List.mem_append] at hmem
    rcases hmem with hmem | hmem
    · exact (mem_map_fst_eraseKey.mp hmem).2 rfl
    · simp only [List.map_cons, List.map_nil, List.mem_singleton] at hmem
      have := keyOf_injective hmem
      omega
  · intro i h1 h2
    rw [scenB_final 5]
    rw [List.map_append, List.mem_append]
    by_cases hi : i = 1000
    · right
      simp [hi]
    · left
      apply mem_map_fst_eraseKey.mpr
      constructor
      · rw [bufB_map_fst]
        exact List.mem_map.mpr ⟨i, List.mem_range.mpr (by omega), rfl⟩
      · intro he
        have := keyOf_injective he
        omega

/-- Witness for C3_capacity_bound at concrete inputs: the bound at the
reachable initial state, and the concrete scenario conclusions at key 3. -/
theorem C3_witness :
    initState.buffer.length ≤ MAX_BUFFER_SIZE ∧
    keyOf 3 ∈ (processList (recsB 1001 5) initState).1.buffer.map Prod.fst := by
  have h := C3_capacity_bound
  exact ⟨(h.1 initState Reachable.init).1, h.2.2.2.2 3 (by decide) (by decide)⟩

/-- C4: when the counter reaches the interval, the sweep removes from the
buffer exactly the entries with timestamp minus last_seen above the
threshold, and from the order exactly the keys of such live groups; and a
live group that stays stale and untouched (every one of the next
CLEANUP_INTERVAL validated records carries a different valid key, at times
beyond the threshold) is absent from the buffer after those records, with
no emission carrying the dropped key. -/
theorem C4_staleness_bound :
    (∀ (s : AggState) (t : Nat), Reachable s →
      ¬ (s.cleanup_counter + 1 < CLEANUP_INTERVAL) →
      (cleanup_buffer t s).buffer = s.buffer.filter (fun p => !(staleB t p.2)) ∧
      (cleanup_buffer t s).buffer_order =
        s.buffer_order.filter (fun x => !(staleKeyB s t x))) ∧
    (∀ (s : AggState) (k : String) (g : Group), Reachable s →
      findKey s.buffer k = some g →
      ∀ rs : List (Nat × Record), rs.length = CLEANUP_INTERVAL →
      (∀ p ∈ rs, ∃ tid, recKey (Prod.snd p) = some tid ∧ tid ≠ k) →
      (∀ p ∈ rs, STALE_TIMEOUT_SEC < Prod.fst p - g.last_seen) →
      findKey (processList rs s).1.buffer k = none ∧
      (∀ d ∈ (processList rs s).2, ∀ out, d = Decision.emit out → out.traceId ≠ k)) := by
  constructor
  · intro s t hreach hcnt
    have hInv := reachable_inv hreach
    rw [cleanup_buffer_sweep hcnt hInv.ndk hInv.ndo hInv.mem hInv.size]
    exact ⟨rfl, rfl⟩
  · intro s k g hreach hfind rs hlen hkeys htimes
    have hInv := reachable_inv hreach
    constructor
    · apply stale_gone rs s k g hInv hfind hkeys htimes
      rw [hlen]
      omega
    · apply no_emit_for_key rs s hInv
      intro p hp hc
      rcases hkeys p hp with ⟨tid, h', hne⟩
      rw [h'] at hc
      exact hne (Option.some.inj hc)

/-- Witness for C4_staleness_bound: the group of key abc (last seen at time
5) is gone after 100 other-key records processed at time 36. -/
theorem C4_witness :
    findKey (processList wRecs stateA1).1.buffer "abc" = none := by
  have h := C4_staleness_bound.2 stateA1 "abc" grpA1
    (Reachable.step 5 rA1 Reachable.init) (by decide) wRecs (by decide)
    (by
      intro p hp
      rw [List.eq_of_mem_replicate hp]
      exact ⟨"w", by decide, by decide⟩)
    (by
      intro p hp
      rw [List.eq_of_mem_replicate hp]
      decide)
  exact h.1

/-- C5, counterexample: the claim says the processed-record counter is
incremented as the first step of every call, before the correlation key is
validated, so a call on a record with an absent key would leave the counter
at its value plus one.  The source validates first (lines 66-75 precede the
`cleanup_buffer` call on line 80), so the counter is untouched. -/
theorem C5_counterexample :
    (combine_logs 5 noKeyRec initState).2.cleanup_counter ≠
      initState.cleanup_counter + 1 := by decide

/-- C5, amended: the processed-record counter is incremented, and the sweep
run and the counter reset when it reaches CLEANUP_INTERVAL, only after the
correlation key is validated; a record with an invalid key leaves the whole
state, the counter included, unchanged. -/
theorem C5_counter_after_validation :
    ∀ (t : Nat) (r : Record) (s : AggState),
      (recKey r = none → (combine_logs t r s).2 = s) ∧
      (∀ k, recKey r = some k →
        (combine_logs t r s).2.cleanup_counter =
          if s.cleanup_counter + 1 < CLEANUP_INTERVAL then s.cleanup_counter + 1 else 0) :=
  fun t r s =>
    ⟨fun h => by rw [combine_logs_invalid h],
     fun k hk => by rw [combine_logs_counter hk, cleanup_counter_eq]⟩

/-- Witness for C5_counter_after_validation at concrete inputs: a keyless
record leaves the initial state unchanged; a valid record bumps the counter
to 1. -/
theorem C5_witness :
    (combine_logs 5 noKeyRec initState).2 = initState ∧
    (combine_logs 5 rA1 initState).2.cleanup_counter = 1 := by
  constructor
  · exact (C5_counter_after_validation 5 noKeyRec initState).1 (by decide)
  · have h := (C5_counter_after_validation 5 rA1 initState).2 "abc" (by decide)
    simpa [initState, CLEANUP_INTERVAL] using h

/-- C6: a record whose correlation key is absent, not a string, or empty is
returned unchanged via pass-through, and the state — buffer, order and
counter — is exactly the state before the call: no group is created, touched
or removed. -/
theorem C6_pass_through :
    ∀ (t : Nat) (r : Record) (s : AggState), recKey r = none →
      combine_logs t r s = (Decision.passThrough r, s) :=
  fun _ _ _ h => combine_logs_invalid h

/-- Witness for C6_pass_through: a record without a traceId and a record with
a numeric traceId pass through two concrete states unchanged. -/
theorem C6_witness :
    combine_logs 3 noKeyRec initState = (Decision.passThrough noKeyRec, initState) ∧
    combine_logs 3 numKeyRec stateA1 = (Decision.passThrough numKeyRec, stateA1) :=
  ⟨C6_pass_through 3 noKeyRec initState (by decide),
   C6_pass_through 3 numKeyRec stateA1 (by decide)⟩

/-- C7: in every reachable state the eviction order lists each live group key
exactly once, and its membership coincides with the key set of the buffer;
every branch of combine_logs preserves this. -/
theorem C7_order_matches_buffer :
    ∀ s : AggState, Reachable s →
      s.buffer_order.Nodup ∧ ∀ k, (k ∈ s.buffer_order ↔ k ∈ s.buffer.map Prod.fst) :=
  fun _ h => ⟨(reachable_inv h).ndo, (reachable_inv h).mem⟩

/-- Witness for C7_order_matches_buffer at the reachable state after one
Scenario A record. -/
theorem C7_witness :
    stateA1.buffer_order.Nodup ∧
    ("abc" ∈ stateA1.buffer_order ↔ "abc" ∈ stateA1.buffer.map Prod.fst) := by
  have h := C7_order_matches_buffer stateA1 (Reachable.step 5 rA1 Reachable.init)
  exact ⟨h.1, h.2 "abc"⟩

/-- C9: applying a record to a group is last-write-wins independently per
status field: each field present on the record overwrites the stored value,
and each absent field leaves the stored value untouched. -/
theorem C9_last_write_wins :
    ∀ (g : Group) (msg : String) (r : Record),
      (∀ v, r.method = some v → (updateGroup g msg r).method = some v) ∧
      (r.method = none → (updateGroup g msg r).method = g.method) ∧
      (∀ v, r.path = some v → (updateGroup g msg r).path = some v) ∧
      (r.path = none → (updateGroup g msg r).path = g.path) ∧
      (∀ v, r.status = some v → (updateGroup g msg r).status = some v) ∧
      (r.status = none → (updateGroup g msg r).status = g.status) ∧
      (∀ v, r.latencyMs = some v → (updateGroup g msg r).latencyMs = some v) ∧
      (r.latencyMs = none → (updateGroup g msg r).latencyMs = g.latencyMs) := by
  intro g msg r
  refine ⟨?_, ?_, ?_, ?_, ?_, ?_, ?_, ?_⟩ <;>
    first
      | (intro v hv
         simp [updateGroup, hv])
      | (intro hv
         simp [updateGroup, hv])

/-- Witness for C9_last_write_wins: a record updating only status overwrites
status and does not clear the stored path. -/
theorem C9_witness :
    (updateGroup gDemo "m" statusOnlyRec).status = some (.num 500) ∧
    (updateGroup gDemo "m" statusOnlyRec).path = gDemo.path := by
  have h := C9_last_write_wins gDemo "m" statusOnlyRec
  exact ⟨h.2.2.2.2.1 (.num 500) (by decide), h.2.2.2.1 (by decide)⟩

/-- C10: in every reachable state every live group has completed = false —
the flag is only set inside the call that immediately destroys the group —
so the duplicate-completion guard condition (a live completed group seen
after the cleanup step) is false for every live group, whatever the record's
completion flag. -/
theorem C10_no_completed_live_group :
    ∀ s : AggState, Reachable s →
      (∀ p ∈ s.buffer, (Prod.snd p).completed = false) ∧
      (∀ t k g, findKey (cleanup_buffer t s).buffer k = some g →
        ∀ m : Bool, (g.completed && m) = false) := by
  intro s h
  refine ⟨(reachable_inv h).uncompleted, ?_⟩
  intro t k g hf m
  have hInv := inv_cleanup (reachable_inv h) t
  have hc : g.completed = false := hInv.uncompleted (k, g) (mem_of_findKey_eq_some hf)
  rw [hc, Bool.false_and]

/-- Witness for C10_no_completed_live_group: the concrete live group of
`stateA1` is uncompleted, so the guard condition is false for it. -/
theorem C10_witness :
    findKey (cleanup_buffer 6 stateA1).buffer "abc" = some grpA1 ∧
    (grpA1.completed && true) = false := by
  constructor
  · decide
  · exact (C10_no_completed_live_group stateA1
      (Reachable.step 5 rA1 Reachable.init)).2 6 "abc" grpA1 (by decide) true

/-- C2, code bug: the source intends to suppress a duplicate completion
signal (comments on lines 113-115), and the claim says two completion
records in immediate succession for one key yield exactly one Emit.  But the
flush of the first completion deletes the buffer entry (line 151), so the
guard of line 114 can never fire: the second completion record creates a
fresh group and immediately flushes it, yielding a second Emit. -/
theorem C2_duplicate_completion_double_emit :
    (processList [(5, rA2), (5, rA2)] initState).2 =
      [Decision.emit dupOut, Decision.emit dupOut] := by decide

/-- C8: for a record with a valid correlation key processed in a reachable
state, the call returns an Emit exactly when the record's message (empty
string when absent) contains the completion marker as a substring anywhere,
and returns Suppress otherwise.  The duplicate-completion guard cannot
interfere because live groups are never completed. -/
theorem C8_emit_iff_marker :
    ∀ s : AggState, Reachable s → ∀ (t : Nat) (r : Record) (k : String),
      recKey r = some k →
      ((∃ out, (combine_logs t r s).1 = Decision.emit out) ↔
        completionMarker.toList <:+: (r.message.getD "").toList) ∧
      (¬ (completionMarker.toList <:+: (r.message.getD "").toList) →
        (combine_logs t r s).1 = Decision.suppress) := by
  intro s hreach t r k hk
  have hg : ∀ g0, findKey (cleanup_buffer t s).buffer k = some g0 →
      g0.completed = false := fun g0 hf =>
    (inv_cleanup (reachable_inv hreach) t).uncompleted (k, g0) (mem_of_findKey_eq_some hf)
  have hcase : (hasMarker (r.message.getD "") = true →
        ∃ out, (combine_logs t r s).1 = Decision.emit out) ∧
      (hasMarker (r.message.getD "") = false →
        (combine_logs t r s).1 = Decision.suppress) := by
    cases hf : findKey (cleanup_buffer t s).buffer k with
    | none =>
      rw [combine_logs_new hk hf]
      constructor
      · intro hm
        rw [hm, finishRecord_true]
        exact ⟨_, rfl⟩
      · intro hm
        rw [hm, finishRecord_false]
    | some g0 =>
      rw [combine_logs_existing hk hf]
      have hc : g0.completed = false := hg g0 hf
      rw [hc, Bool.false_and, if_neg Bool.false_ne_true]
      constructor
      · intro hm
        rw [hm, finishRecord_true]
        exact ⟨_, rfl⟩
      · intro hm
        rw [hm, finishRecord_false]
  constructor
  · constructor
    · rintro ⟨out, hout⟩
      by_cases hm : hasMarker (r.message.getD "") = true
      · exact of_decide_eq_true hm
      · rw [Bool.not_eq_true] at hm
        rw [hcase.2 hm] at hout
        exact absurd hout (by simp)
    · intro hp
      exact hcase.1 (decide_eq_true hp)
  · intro hp
    exact hcase.2 (decide_eq_false hp)

/-- Witness for C8_emit_iff_marker: a completion-signal record emits, a plain
record is suppressed. -/
theorem C8_witness :
    (∃ out, (combine_logs 5 rA2 initState).1 = Decision.emit out) ∧
    (combine_logs 5 rA1 initState).1 = Decision.suppress := by
  have h2 := C8_emit_iff_marker initState Reachable.init 5 rA2 "abc" (by decide)
  have h1 := C8_emit_iff_marker initState Reachable.init 5 rA1 "abc" (by decide)
  exact ⟨h2.1.mpr (by decide), h1.2 (by decide)⟩

end Aggregate
